import Mathlib

/-!
Verification of the runtime core of `scheme-rs` (`src/runtime.rs`): the
runtime ABI surface callable from JIT-generated code (`store`, `truthy`,
`make_application`, `make_return_values`, `drop_values`, `make_closure`)
and the compilation scheduler (`compile_cps` / `compilation_task` over a
bounded queue of `MAX_COMPILATION_TASKS`).

The reference-counted heap (`Gc`), the `Value` variants and the
`Application`/`Closure` records live outside the provided source tree, so
they are modelled from the specification: a heap maps addresses to
(refcount, content) cells; `Gc::from_raw` is the borrowing re-adoption the
spec describes for the ABI functions (it takes its own reference, so the
count rises by one and falls back when the re-adopted handle drops), while
`Gc::drop_raw` is the explicit release that gives up one reference.
-/

namespace SchemeRS

/- Heap addresses (plain naturals) stand in for the raw `*mut GcInner<_>`
pointers throughout. -/

/-- Modelled from the spec: the numeric tower is out of scope beyond what the
ABI touches; `Number::from(i64)` boxes a machine integer. -/
inductive Number where
  | int : Int → Number
deriving DecidableEq, Repr

/-- Modelled from the spec: a closure's entry point is "either a native
function pointer (machine code) or an alternate (interpreted)
representation — a two-way choice" (`Either<SyncFuncPtr, _>` in the code,
with function pointers and bodies kept opaque as identifiers). -/
inductive EntryPoint where
  | left : Nat → EntryPoint
  | right : Nat → EntryPoint
deriving DecidableEq, Repr

/-- Modelled from the spec: a Closure holds an ordered capture list of
handles, an ordered global-binding list, and an entry point. The handles
are addresses of value cells on the heap. -/
structure Closure where
  env : List Nat
  globals : List Nat
  fnPtr : EntryPoint
deriving DecidableEq, Repr

/-- Modelled from the spec: the Value variants the ABI touches — the
`Undefined` placeholder, boxed numbers, a boolean sentinel (the one falsy
value), and `Closure` holding a handle into the closure cells. -/
inductive Value where
  | undefined : Value
  | number : Number → Value
  | boolean : Bool → Value
  | closure : Nat → Value
deriving DecidableEq, Repr

/-- Modelled from the spec: `Value::is_true` — "a defined false sentinel is
the only falsy value; all other variants, including zero, are truthy". -/
def Value.is_true : Value → Bool
  | .boolean false => false
  | _ => true

/-- Whether a Value narrows (`TryInto<&Gc<Closure>>`) to a Closure. -/
def Value.isClosure : Value → Bool
  | .closure _ => true
  | _ => false

/-- Modelled from the spec: the Application record has two shapes, Call
(operator — the adopted `Gc<Closure>` handle — plus ordered argument
handles, `Application::new`) and Return (ordered value handles only,
`Application::new_empty`). -/
inductive Application where
  | call : Nat → List Nat → Application
  | ret : List Nat → Application
deriving DecidableEq, Repr

/-- Modelled from the spec: the reference-counted heap. Value cells and
closure cells are kept in separate address spaces, each cell carrying its
reference count; `next` is the next fresh address. -/
structure Heap where
  vals : Nat → Option (Nat × Value)
  clos : Nat → Option (Nat × Closure)
  next : Nat

/-- The empty heap. -/
def Heap.empty : Heap := ⟨fun _ => none, fun _ => none, 0⟩

/-- Refcount of the value cell at `p`, if the cell exists. -/
def Heap.rcVal (h : Heap) (p : Nat) : Option Nat := (h.vals p).map Prod.fst

/-- Refcount of the value cell at `p`, defaulting at 0 for a missing cell. -/
def Heap.rcValD (h : Heap) (p : Nat) : Nat := ((h.vals p).map Prod.fst).getD 0

/-- Whether `p` addresses a live value cell (a valid handle pointer). -/
def Heap.validVal (h : Heap) (p : Nat) : Bool := (h.vals p).isSome

/-- Modelled from the spec: `Gc::read` — a non-owning borrow of the value
behind the handle (Undefined for a dangling pointer, which valid callers
never pass). -/
def Heap.read (h : Heap) (p : Nat) : Value := ((h.vals p).map Prod.snd).getD .undefined

/-- Modelled from the spec: `*gc.write() = v` — in-place replacement of the
cell's content, preserving the cell's address and refcount. -/
def Heap.write (h : Heap) (p : Nat) (v : Value) : Heap :=
  { h with vals := fun q => if q = p then (h.vals p).map (fun rv => (rv.1, v)) else h.vals q }

/-- Modelled from the spec: `Gc::from_raw` — borrowing re-adoption of a raw
pointer; the new handle takes its own reference, so the count rises by one. -/
def Heap.incRCVal (h : Heap) (p : Nat) : Heap :=
  { h with vals := fun q => if q = p then (h.vals p).map (fun rv => (rv.1 + 1, rv.2)) else h.vals q }

/-- Modelled from the spec: dropping a value handle (or `Gc::drop_raw`) —
gives up one reference, so the count falls by one. -/
def Heap.decRCVal (h : Heap) (p : Nat) : Heap :=
  { h with vals := fun q => if q = p then (h.vals p).map (fun rv => (rv.1 - 1, rv.2)) else h.vals q }

/-- Modelled from the spec: cloning the `Gc<Closure>` inside a
`Value::Closure` takes its own reference on the closure cell. -/
def Heap.incRCClos (h : Heap) (p : Nat) : Heap :=
  { h with clos := fun q => if q = p then (h.clos p).map (fun rv => (rv.1 + 1, rv.2)) else h.clos q }

/-- Modelled from the spec: `Gc::new` on a Value — allocates a fresh value
cell owning `v` with refcount 1 and returns its address. -/
def Heap.newVal (h : Heap) (v : Value) : Heap × Nat :=
  ({ vals := fun q => if q = h.next then some (1, v) else h.vals q,
     clos := h.clos, next := h.next + 1 }, h.next)

/-- Modelled from the spec: `Gc::new` on a Closure — allocates a fresh
closure cell owning `c` with refcount 1 and returns its address. -/
def Heap.newClos (h : Heap) (c : Closure) : Heap × Nat :=
  ({ vals := h.vals,
     clos := fun q => if q = h.next then some (1, c) else h.clos q, next := h.next + 1 }, h.next)

/-- A well-formed heap: no live cell sits at or beyond the allocation
frontier, so fresh allocations never clobber a live cell. -/
def Heap.WF (h : Heap) : Prop :=
  ∀ p, h.next ≤ p → h.vals p = none ∧ h.clos p = none

/-- The argument-collection loop the ABI constructors share: re-adopt
(`Gc::from_raw`) each pointer of the array in index order. -/
def adoptAll (h : Heap) (ps : List Nat) : Heap :=
  ps.foldl (fun acc a => acc.incRCVal a) h

/-- The function `store` from `src/runtime.rs` (parameter names `from_`,
`to_` stand for the source's `from`, `to`): re-adopt both pointers
(`Gc::from_raw`), clone the value read through the first, overwrite the
value behind the second in place, then both re-adopted handles drop. -/
def store (h : Heap) (from_ to_ : Nat) : Heap :=
  let h1 := h.incRCVal from_
  let h2 := h1.incRCVal to_
  let new_val := h2.read from_
  let h3 := h2.write to_ new_val
  (h3.decRCVal to_).decRCVal from_

/-- `truthy` from `src/runtime.rs`: re-adopt the pointer (`Gc::from_raw`),
read the value and test `is_true`; the re-adopted handle drops at the end
of the expression. -/
def truthy (h : Heap) (val : Nat) : Heap × Bool :=
  let h1 := h.incRCVal val
  let b := (h1.read val).is_true
  (h1.decRCVal val, b)

/-- `make_application` from `src/runtime.rs`: re-adopt each argument
pointer in index order into `gc_args`, re-adopt the operator, narrow the
operator's Value (`TryInto<&Gc<Closure>>` + `unwrap`, which aborts when it
is not a Closure — modelled as the error outcome), clone the inner closure
handle into `Application::new`, and drop the operator's value handle. -/
def make_application (h : Heap) (op : Nat) (args : List Nat) :
    Except Unit (Heap × Application) :=
  let h1 := adoptAll h args
  let h2 := h1.incRCVal op
  match h2.read op with
  | Value.closure cp => Except.ok (((h2.incRCClos cp).decRCVal op), Application.call cp args)
  | _ => Except.error ()

/-- `make_return_values` from `src/runtime.rs`: re-adopt each argument
pointer in index order into `gc_args` and build `Application::new_empty`;
there is no operator and no check, so the function is total. -/
def make_return_values (h : Heap) (args : List Nat) : Heap × Application :=
  let h1 := adoptAll h args
  (h1, Application.ret args)

/-- `drop_values` from `src/runtime.rs`: `Gc::drop_raw` each of the
`num_vals` pointers of the array in index order. -/
def drop_values (h : Heap) (vals : List Nat) : Heap :=
  vals.foldl (fun acc a => acc.decRCVal a) h

/-- `make_closure` from `src/runtime.rs`: collect the environment and then
the globals by re-adopting each pointer (`Gc::from_raw`) in index order,
build `Closure::new(env, globals, Either::Left(fn_ptr))`, box the Closure
behind a new `Gc<Closure>` cell, wrap that in a new `Value::Closure` cell
and return that value cell's address as the new owned handle. -/
def make_closure (h : Heap) (env globals : List Nat) (fn_ptr : Nat) : Heap × Nat :=
  let h1 := adoptAll h env
  let h2 := adoptAll h1 globals
  let c : Closure := ⟨env, globals, EntryPoint.left fn_ptr⟩
  let hc := h2.newClos c
  let hv := hc.1.newVal (Value.closure hc.2)
  (hv.1, hv.2)

/-- `MAX_COMPILATION_TASKS` from `src/runtime.rs`, the capacity of the
bounded compilation channel created by `CompilationBuffer::default`. -/
def MAX_COMPILATION_TASKS : Nat := 5

/-- Compilation units (`Cps`) are opaque to the runtime core; they are
identified by a tag here. -/
abbrev Cps := Nat

/-- Modelled from the spec: the structured compilation failure (inkwell's
`BuilderError`), kept opaque as an identifier. -/
inductive BuilderError where
  | mk : Nat → BuilderError
deriving DecidableEq, Repr

/-- `CompilationResult` from `src/runtime.rs`: either a successfully
constructed Closure or the lowering error. -/
abbrev CompilationResult := Except BuilderError Closure

/-- `CompilationTask` from `src/runtime.rs`: the submitted compilation
unit paired with its one-shot completion channel (modelled as a channel
identifier). -/
structure CompilationTask where
  completion_tx : Nat
  compilation_unit : Cps
deriving DecidableEq, Repr

/-- The worker loop of `compilation_task` from `src/runtime.rs`, applied
to the sequence of tasks received from the queue in admission order: each
iteration lowers the unit (`Cps::into_closure`, supplied as `lower`
because the lowering pass lives outside the runtime core) and performs
exactly one send of the produced result on that task's completion
channel. -/
def compilation_task_loop (lower : Cps → CompilationResult)
    (tasks : List CompilationTask) : List (Nat × CompilationResult) :=
  tasks.map fun t => (t.completion_tx, lower t.compilation_unit)

/-- Modelled from the spec: the state of the bounded compilation queue —
the tasks admitted to the channel buffer in FIFO order, plus the
submitters currently suspended inside `send` waiting for capacity. -/
structure SchedState where
  queue : List CompilationTask
  waiting : List CompilationTask
deriving DecidableEq, Repr

/-- Modelled from the spec: the scheduler transitions of the bounded
channel. A submitter's `send` enqueues while the buffer holds fewer than
`MAX_COMPILATION_TASKS` tasks and otherwise suspends the submitter; the
worker's `blocking_recv` removes the front task; a suspended submitter is
admitted only once the buffer is back below capacity. -/
inductive SchedStep : SchedState → SchedState → Prop where
  | submit (s : SchedState) (t : CompilationTask)
      (hlt : s.queue.length < MAX_COMPILATION_TASKS) :
      SchedStep s ⟨s.queue ++ [t], s.waiting⟩
  | suspend (s : SchedState) (t : CompilationTask)
      (hfull : MAX_COMPILATION_TASKS ≤ s.queue.length) :
      SchedStep s ⟨s.queue, s.waiting ++ [t]⟩
  | recv (q : List CompilationTask) (t : CompilationTask) (w : List CompilationTask) :
      SchedStep ⟨t :: q, w⟩ ⟨q, w⟩
  | unblock (q : List CompilationTask) (t : CompilationTask) (w : List CompilationTask)
      (hlt : q.length < MAX_COMPILATION_TASKS) :
      SchedStep ⟨q, t :: w⟩ ⟨q ++ [t], w⟩

/-- Scheduler states reachable from the initial empty state. -/
inductive SchedReachable : SchedState → Prop where
  | init : SchedReachable ⟨[], []⟩
  | step (s s' : SchedState) : SchedReachable s → SchedStep s s' → SchedReachable s'

/-- A concrete two-cell heap used by the closed witness statements: cell 0
holds `Number 7` and cell 1 holds `Undefined`, each with refcount 1. -/
def heapW : Heap :=
  ((Heap.empty.newVal (Value.number (Number.int 7))).1.newVal Value.undefined).1

/-- A concrete heap for the application witnesses: cell 0 holds `Number 7`
and cell 1 holds `Value::Closure` pointing at closure cell 5. -/
def heapApp : Heap :=
  ((Heap.empty.newVal (Value.number (Number.int 7))).1.newVal (Value.closure 5)).1

/-- A concrete lowering function for the scheduler witnesses: unit 0 fails
with a structured error, every other unit lowers to a trivial closure. -/
def lowerW : Cps → CompilationResult :=
  fun c => if c = 0 then Except.error (BuilderError.mk 0)
    else Except.ok ⟨[], [], EntryPoint.left 0⟩

/-- A concrete admission-ordered task list for the scheduler witnesses:
channel 1 carries unit 0 (which fails to lower), channel 2 carries unit 3. -/
def tasksW : List CompilationTask := [⟨1, 0⟩, ⟨2, 3⟩]

end SchemeRS

namespace SchemeRS

theorem rcVal_incRCVal (h : Heap) (p q : Nat) :
    (h.incRCVal p).rcVal q = if q = p then (h.rcVal q).map (· + 1) else h.rcVal q := by
  by_cases hq : q = p
  · subst hq
    simp only [Heap.incRCVal, Heap.rcVal, if_pos rfl]
    cases h.vals q <;> simp
  · simp [Heap.incRCVal, Heap.rcVal, hq]

theorem rcVal_decRCVal (h : Heap) (p q : Nat) :
    (h.decRCVal p).rcVal q = if q = p then (h.rcVal q).map (· - 1) else h.rcVal q := by
  by_cases hq : q = p
  · subst hq
    simp only [Heap.decRCVal, Heap.rcVal, if_pos rfl]
    cases h.vals q <;> simp
  · simp [Heap.decRCVal, Heap.rcVal, hq]

theorem rcVal_write (h : Heap) (p : Nat) (v : Value) (q : Nat) :
    (h.write p v).rcVal q = h.rcVal q := by
  by_cases hq : q = p
  · subst hq
    simp only [Heap.write, Heap.rcVal, if_pos rfl]
    cases h.vals q <;> simp
  · simp [Heap.write, Heap.rcVal, hq]

theorem read_incRCVal (h : Heap) (p q : Nat) : (h.incRCVal p).read q = h.read q := by
  by_cases hq : q = p
  · subst hq
    simp only [Heap.incRCVal, Heap.read, if_pos rfl]
    cases h.vals q <;> simp
  · simp [Heap.incRCVal, Heap.read, hq]

theorem read_decRCVal (h : Heap) (p q : Nat) : (h.decRCVal p).read q = h.read q := by
  by_cases hq : q = p
  · subst hq
    simp only [Heap.decRCVal, Heap.read, if_pos rfl]
    cases h.vals q <;> simp
  · simp [Heap.decRCVal, Heap.read, hq]

theorem read_write_self (h : Heap) (p : Nat) (v : Value) (hp : h.validVal p = true) :
    (h.write p v).read p = v := by
  simp only [Heap.write, Heap.read, if_pos rfl]
  simp only [Heap.validVal, Option.isSome_iff_exists] at hp
  obtain ⟨rv, hrv⟩ := hp
  simp [hrv]

theorem read_write_other (h : Heap) (p : Nat) (v : Value) (q : Nat) (hq : q ≠ p) :
    (h.write p v).read q = h.read q := by
  simp [Heap.write, Heap.read, hq]

theorem validVal_incRCVal (h : Heap) (p q : Nat) :
    (h.incRCVal p).validVal q = h.validVal q := by
  by_cases hq : q = p
  · subst hq
    simp only [Heap.incRCVal, Heap.validVal, if_pos rfl]
    cases h.vals q <;> simp
  · simp [Heap.incRCVal, Heap.validVal, hq]

theorem validVal_decRCVal (h : Heap) (p q : Nat) :
    (h.decRCVal p).validVal q = h.validVal q := by
  by_cases hq : q = p
  · subst hq
    simp only [Heap.decRCVal, Heap.validVal, if_pos rfl]
    cases h.vals q <;> simp
  · simp [Heap.decRCVal, Heap.validVal, hq]

theorem validVal_write (h : Heap) (p : Nat) (v : Value) (q : Nat) :
    (h.write p v).validVal q = h.validVal q := by
  by_cases hq : q = p
  · subst hq
    simp only [Heap.write, Heap.validVal, if_pos rfl]
    cases h.vals q <;> simp
  · simp [Heap.write, Heap.validVal, hq]

theorem decRCVal_incRCVal (h : Heap) (p : Nat) : (h.incRCVal p).decRCVal p = h := by
  cases h with
  | mk vals clos next =>
    simp only [Heap.incRCVal, Heap.decRCVal]
    congr 1
    funext q
    by_cases hq : q = p
    · subst hq
      simp only [if_pos rfl]
      cases vals q <;> simp
    · simp [hq]

theorem rcVal_store (h : Heap) (from_ to_ p : Nat) :
    (store h from_ to_).rcVal p = h.rcVal p := by
  simp only [store, rcVal_decRCVal, rcVal_write, rcVal_incRCVal]
  by_cases h1 : p = from_
  · subst h1
    by_cases h2 : p = to_
    · subst h2
      simp only [if_pos rfl]
      cases h.rcVal p with
      | none => simp
      | some n => simp
    · simp only [if_pos rfl, if_neg h2]
      cases h.rcVal p with
      | none => simp
      | some n => simp
  · by_cases h2 : p = to_
    · subst h2
      simp only [if_pos rfl, if_neg h1]
      cases h.rcVal p with
      | none => simp
      | some n => simp
    · simp only [if_neg h1, if_neg h2]

theorem validVal_store (h : Heap) (from_ to_ p : Nat) :
    (store h from_ to_).validVal p = h.validVal p := by
  simp only [store, validVal_decRCVal, validVal_write, validVal_incRCVal]

theorem read_store_self (h : Heap) (from_ to_ : Nat) (hto : h.validVal to_ = true) :
    (store h from_ to_).read to_ = h.read from_ := by
  have hvalid : ((h.incRCVal from_).incRCVal to_).validVal to_ = true := by
    rw [validVal_incRCVal, validVal_incRCVal]; exact hto
  simp only [store, read_decRCVal]
  rw [read_write_self _ _ _ hvalid, read_incRCVal, read_incRCVal]

theorem read_store_other (h : Heap) (from_ to_ p : Nat) (hp : p ≠ to_) :
    (store h from_ to_).read p = h.read p := by
  simp only [store, read_decRCVal]
  rw [read_write_other _ _ _ _ hp, read_incRCVal, read_incRCVal]

/-- C1: `store(from, to)` consumes ownership of neither handle — the
reference counts of both the `from` cell and the `to` cell are unchanged
by the call (each borrowing re-adoption is matched by a drop). -/
theorem store_preserves_refcounts (h : Heap) (from_ to_ : Nat) :
    (store h from_ to_).rcVal from_ = h.rcVal from_ ∧
      (store h from_ to_).rcVal to_ = h.rcVal to_ :=
  ⟨rcVal_store h from_ to_ from_, rcVal_store h from_ to_ to_⟩

/-- C2: `truthy(val)` is a borrowed check — it leaves the heap exactly as
it found it (in particular the handle's reference count is unchanged) and
returns whether the referenced value is true per the truthiness rule. -/
theorem truthy_borrowed (h : Heap) (val : Nat) :
    (truthy h val).1 = h ∧ (truthy h val).2 = (h.read val).is_true := by
  refine ⟨decRCVal_incRCVal h val, ?_⟩
  simp only [truthy, Heap.read, Heap.incRCVal]
  cases h.vals val <;> simp

/-- C4: `store(from, to)` leaves the `to` handle's identity (cell presence
and refcount at the same address) unchanged, replaces its content with the
content read through `from` at call time, and a later in-place mutation of
the value behind `from` does not retroactively change the value behind
`to`. -/
theorem store_preserves_identity (h : Heap) (from_ to_ : Nat)
    (hto : h.validVal to_ = true) :
    (store h from_ to_).read to_ = h.read from_ ∧
    (store h from_ to_).validVal to_ = h.validVal to_ ∧
    (store h from_ to_).rcVal to_ = h.rcVal to_ ∧
    (from_ ≠ to_ → ∀ w, ((store h from_ to_).write from_ w).read to_ = h.read from_) := by
  refine ⟨read_store_self h from_ to_ hto, validVal_store h from_ to_ to_,
    rcVal_store h from_ to_ to_, ?_⟩
  intro hne w
  rw [read_write_other _ from_ w to_ (Ne.symm hne)]
  exact read_store_self h from_ to_ hto

/-- Witness for C4 at a concrete heap: cell 0 holds Number 7, cell 1 holds
Undefined; storing 0 into 1 copies the number, and overwriting cell 0
afterwards does not change cell 1. -/
theorem store_preserves_identity_witness :
    (store heapW 0 1).read 1 = heapW.read 0 ∧
    ((store heapW 0 1).write 0 Value.undefined).read 1 = heapW.read 0 :=
  ⟨(store_preserves_identity heapW 0 1 (by decide)).1,
   (store_preserves_identity heapW 0 1 (by decide)).2.2.2 (by decide) Value.undefined⟩

theorem adoptAll_cons (h : Heap) (a : Nat) (rest : List Nat) :
    adoptAll h (a :: rest) = adoptAll (h.incRCVal a) rest := rfl

theorem read_adoptAll (h : Heap) (ps : List Nat) (q : Nat) :
    (adoptAll h ps).read q = h.read q := by
  induction ps generalizing h with
  | nil => rfl
  | cons a rest ih => rw [adoptAll_cons, ih, read_incRCVal]

theorem validVal_adoptAll (h : Heap) (ps : List Nat) (q : Nat) :
    (adoptAll h ps).validVal q = h.validVal q := by
  induction ps generalizing h with
  | nil => rfl
  | cons a rest ih => rw [adoptAll_cons, ih, validVal_incRCVal]

theorem next_incRCVal (h : Heap) (p : Nat) : (h.incRCVal p).next = h.next := rfl

theorem clos_incRCVal (h : Heap) (p : Nat) : (h.incRCVal p).clos = h.clos := rfl

theorem next_adoptAll (h : Heap) (ps : List Nat) : (adoptAll h ps).next = h.next := by
  induction ps generalizing h with
  | nil => rfl
  | cons a rest ih => rw [adoptAll_cons, ih, next_incRCVal]

theorem clos_adoptAll (h : Heap) (ps : List Nat) : (adoptAll h ps).clos = h.clos := by
  induction ps generalizing h with
  | nil => rfl
  | cons a rest ih => rw [adoptAll_cons, ih, clos_incRCVal]

theorem rcValD_incRCVal_self (h : Heap) (p : Nat) (hp : h.validVal p = true) :
    (h.incRCVal p).rcValD p = h.rcValD p + 1 := by
  simp only [Heap.validVal, Option.isSome_iff_exists] at hp
  obtain ⟨rv, hrv⟩ := hp
  simp [Heap.incRCVal, Heap.rcValD, hrv]

theorem rcValD_incRCVal_other (h : Heap) (p q : Nat) (hq : q ≠ p) :
    (h.incRCVal p).rcValD q = h.rcValD q := by
  simp [Heap.incRCVal, Heap.rcValD, hq]

theorem rcValD_adoptAll (h : Heap) (ps : List Nat) (p : Nat) (hp : h.validVal p = true) :
    (adoptAll h ps).rcValD p = h.rcValD p + ps.count p := by
  induction ps generalizing h with
  | nil => simp [adoptAll]
  | cons a rest ih =>
    rw [adoptAll_cons, ih (h.incRCVal a) (by rw [validVal_incRCVal]; exact hp)]
    by_cases ha : a = p
    · subst ha
      rw [rcValD_incRCVal_self h a hp]
      simp [List.count_cons]
      omega
    · rw [rcValD_incRCVal_other h a p (fun e => ha e.symm)]
      simp [List.count_cons, ha]

theorem rcVal_adoptAll_not_mem (h : Heap) (ps : List Nat) (p : Nat) (hp : p ∉ ps) :
    (adoptAll h ps).rcVal p = h.rcVal p := by
  induction ps generalizing h with
  | nil => rfl
  | cons a rest ih =>
    rw [adoptAll_cons, ih _ (fun hmem => hp (List.mem_cons_of_mem a hmem))]
    rw [rcVal_incRCVal, if_neg (fun e => hp (by rw [e]; exact List.mem_cons_self a rest))]

theorem rcValD_decRCVal_self (h : Heap) (p : Nat) (hp : h.validVal p = true) :
    (h.decRCVal p).rcValD p = h.rcValD p - 1 := by
  simp only [Heap.validVal, Option.isSome_iff_exists] at hp
  obtain ⟨rv, hrv⟩ := hp
  simp [Heap.decRCVal, Heap.rcValD, hrv]

theorem rcValD_decRCVal_other (h : Heap) (p q : Nat) (hq : q ≠ p) :
    (h.decRCVal p).rcValD q = h.rcValD q := by
  simp [Heap.decRCVal, Heap.rcValD, hq]

theorem drop_values_cons (h : Heap) (a : Nat) (rest : List Nat) :
    drop_values h (a :: rest) = drop_values (h.decRCVal a) rest := rfl

theorem rcValD_drop_values (h : Heap) (vals : List Nat) (p : Nat)
    (hp : h.validVal p = true) :
    (drop_values h vals).rcValD p = h.rcValD p - vals.count p := by
  induction vals generalizing h with
  | nil => simp [drop_values]
  | cons a rest ih =>
    rw [drop_values_cons, ih (h.decRCVal a) (by rw [validVal_decRCVal]; exact hp)]
    by_cases ha : a = p
    · subst ha
      rw [rcValD_decRCVal_self h a hp]
      simp [List.count_cons]
      omega
    · rw [rcValD_decRCVal_other h a p (fun e => ha e.symm)]
      simp [List.count_cons, ha]

theorem rcVal_drop_values_not_mem (h : Heap) (vals : List Nat) (p : Nat)
    (hp : p ∉ vals) :
    (drop_values h vals).rcVal p = h.rcVal p := by
  induction vals generalizing h with
  | nil => rfl
  | cons a rest ih =>
    rw [drop_values_cons, ih _ (fun hmem => hp (List.mem_cons_of_mem a hmem))]
    rw [rcVal_decRCVal, if_neg (fun e => hp (by rw [e]; exact List.mem_cons_self a rest))]

/-- C8: `drop_values` releases each pointer of the array exactly once —
for a duplicate-free array every referenced live cell's refcount falls by
exactly one, and cells outside the array are untouched (no leak, no double
release). -/
theorem drop_values_spec (h : Heap) (vals : List Nat) (hnd : vals.Nodup) :
    (∀ p, p ∈ vals → h.validVal p = true →
        (drop_values h vals).rcValD p = h.rcValD p - 1) ∧
    (∀ p, p ∉ vals → (drop_values h vals).rcVal p = h.rcVal p) := by
  constructor
  · intro p hmem hvalid
    rw [rcValD_drop_values h vals p hvalid, List.count_eq_one_of_mem hnd hmem]
  · intro p hnmem
    exact rcVal_drop_values_not_mem h vals p hnmem

/-- Witness for C8 on the two-cell heap: dropping `[0, 1]` decrements both
cells once and leaves the (absent) cell 2 untouched. -/
theorem drop_values_spec_witness :
    (drop_values heapW [0, 1]).rcValD 0 = heapW.rcValD 0 - 1 ∧
    (drop_values heapW [0, 1]).rcValD 1 = heapW.rcValD 1 - 1 ∧
    (drop_values heapW [0, 1]).rcVal 2 = heapW.rcVal 2 :=
  ⟨(drop_values_spec heapW [0, 1] (by decide)).1 0 (by decide) (by decide),
   (drop_values_spec heapW [0, 1] (by decide)).1 1 (by decide) (by decide),
   (drop_values_spec heapW [0, 1] (by decide)).2 2 (by decide)⟩

/-- C3: `make_application` fails distinctly (the modelled `unwrap` abort)
whenever the operator's Value does not narrow into a Closure, and for a
Closure operator it returns a Call-shaped Application carrying that
operator's closure handle and exactly the argument pointers in index
order. -/
theorem make_application_spec (h : Heap) (op : Nat) (args : List Nat) :
    ((h.read op).isClosure = false → make_application h op args = Except.error ()) ∧
    (∀ c, h.read op = Value.closure c →
      ∃ h', make_application h op args = Except.ok (h', Application.call c args)) := by
  have hro : ((adoptAll h args).incRCVal op).read op = h.read op := by
    rw [read_incRCVal, read_adoptAll]
  constructor
  · intro hnc
    simp only [make_application, hro]
    cases hv : h.read op with
    | undefined => rfl
    | number n => rfl
    | boolean b => rfl
    | closure c => rw [hv] at hnc; simp [Value.isClosure] at hnc
  · intro c hv
    refine ⟨(((adoptAll h args).incRCVal op).incRCClos c).decRCVal op, ?_⟩
    simp only [make_application, hro, hv]

/-- Witness for C3: on `heapApp`, applying the non-closure cell 0 aborts
while applying the closure cell 1 yields a Call Application with the inner
closure handle 5 and argument list `[0]`. -/
theorem make_application_spec_witness :
    make_application heapApp 0 [] = Except.error () ∧
    (make_application heapApp 1 [0]).map Prod.snd
        = Except.ok (Application.call 5 [0]) := by
  refine ⟨(make_application_spec heapApp 0 []).1 (by decide), ?_⟩
  obtain ⟨h', hh⟩ := (make_application_spec heapApp 1 [0]).2 5 (by decide)
  rw [hh]
  rfl

/-- C7: `make_return_values` is total — it never checks an operator and
always returns a Return-shaped Application carrying exactly the argument
pointers in index order, adopting each of them (each live referenced
cell's refcount rises once per occurrence, others are untouched). -/
theorem make_return_values_spec (h : Heap) (args : List Nat) :
    (make_return_values h args).2 = Application.ret args ∧
    (∀ p, h.validVal p = true →
      (make_return_values h args).1.rcValD p = h.rcValD p + args.count p) ∧
    (∀ p, p ∉ args → (make_return_values h args).1.rcVal p = h.rcVal p) := by
  refine ⟨rfl, ?_, ?_⟩
  · intro p hp
    exact rcValD_adoptAll h args p hp
  · intro p hp
    exact rcVal_adoptAll_not_mem h args p hp

/-- Witness for C7, covering the zero-argument case and a two-element
argument array with a repeated pointer. -/
theorem make_return_values_spec_witness :
    (make_return_values heapW []).2 = Application.ret [] ∧
    (make_return_values heapW [0, 0]).2 = Application.ret [0, 0] ∧
    (make_return_values heapW [0, 0]).1.rcValD 0
        = heapW.rcValD 0 + List.count 0 [0, 0] ∧
    (make_return_values heapW [0, 0]).1.rcVal 2 = heapW.rcVal 2 :=
  ⟨(make_return_values_spec heapW []).1,
   (make_return_values_spec heapW [0, 0]).1,
   (make_return_values_spec heapW [0, 0]).2.1 0 (by decide),
   (make_return_values_spec heapW [0, 0]).2.2 2 (by decide)⟩

theorem heapW_WF : heapW.WF := by
  intro p hp
  have hnx : heapW.next = 2 := rfl
  rw [hnx] at hp
  have h0 : ¬ p = 0 := by omega
  have h1 : ¬ p = 1 := by omega
  constructor
  · simp [heapW, Heap.empty, Heap.newVal, h0, h1]
  · rfl

/-- C6: `make_closure` yields one newly owned handle (a fresh value cell
with refcount 1) boxing a Closure whose capture list and global-binding
list are exactly the input pointer lists in input order, adopting each
environment and global pointer (each live referenced cell's refcount rises
once per occurrence). -/
theorem make_closure_spec (h : Heap) (env globals : List Nat) (fn_ptr : Nat)
    (hwf : h.WF) :
    (make_closure h env globals fn_ptr).2 = h.next + 1 ∧
    (make_closure h env globals fn_ptr).1.vals (h.next + 1)
        = some (1, Value.closure h.next) ∧
    (make_closure h env globals fn_ptr).1.clos h.next
        = some (1, (⟨env, globals, EntryPoint.left fn_ptr⟩ : Closure)) ∧
    h.vals (h.next + 1) = none ∧
    (∀ p, h.validVal p = true →
      (make_closure h env globals fn_ptr).1.rcValD p
          = h.rcValD p + env.count p + globals.count p) := by
  have hnx : (adoptAll (adoptAll h env) globals).next = h.next := by
    rw [next_adoptAll, next_adoptAll]
  refine ⟨?_, ?_, ?_, ?_, ?_⟩
  · simp only [make_closure, Heap.newClos, Heap.newVal, hnx]
  · simp only [make_closure, Heap.newClos, Heap.newVal, hnx]
    simp
  · simp only [make_closure, Heap.newClos, Heap.newVal, hnx]
    simp
  · exact (hwf (h.next + 1) (Nat.le_succ _)).1
  · intro p hp
    have hlt : p < h.next := by
      by_contra hge
      push_neg at hge
      have hnone := (hwf p hge).1
      simp [Heap.validVal, hnone] at hp
    have hvalsp : (make_closure h env globals fn_ptr).1.vals p
        = (adoptAll (adoptAll h env) globals).vals p := by
      simp only [make_closure, Heap.newClos, Heap.newVal, hnx]
      rw [if_neg (by omega)]
    have hrw : (make_closure h env globals fn_ptr).1.rcValD p
        = (adoptAll (adoptAll h env) globals).rcValD p := by
      simp only [Heap.rcValD, hvalsp]
    rw [hrw,
      rcValD_adoptAll _ globals p (by rw [validVal_adoptAll]; exact hp),
      rcValD_adoptAll h env p hp]

/-- Witness for C6 on the two-cell heap (next fresh address 2): the new
value cell sits at address 3, refcount 1, boxing the closure cell at 2
that captures exactly `[0, 1]` and `[0]`. -/
theorem make_closure_spec_witness :
    (make_closure heapW [0, 1] [0] 9).2 = heapW.next + 1 ∧
    (make_closure heapW [0, 1] [0] 9).1.vals (heapW.next + 1)
        = some (1, Value.closure heapW.next) ∧
    (make_closure heapW [0, 1] [0] 9).1.clos heapW.next
        = some (1, (⟨[0, 1], [0], EntryPoint.left 9⟩ : Closure)) ∧
    heapW.vals (heapW.next + 1) = none ∧
    (make_closure heapW [0, 1] [0] 9).1.rcValD 0
        = heapW.rcValD 0 + List.count 0 [0, 1] + List.count 0 [0] :=
  ⟨(make_closure_spec heapW [0, 1] [0] 9 heapW_WF).1,
   (make_closure_spec heapW [0, 1] [0] 9 heapW_WF).2.1,
   (make_closure_spec heapW [0, 1] [0] 9 heapW_WF).2.2.1,
   (make_closure_spec heapW [0, 1] [0] 9 heapW_WF).2.2.2.1,
   (make_closure_spec heapW [0, 1] [0] 9 heapW_WF).2.2.2.2 0 (by decide)⟩

/-- C10: whatever Closure the handle returned by `make_closure` boxes, its
entry point is the native function-pointer alternative (`Either::Left` of
the two-way choice) — never the alternate (interpreted) representation. -/
theorem make_closure_entry_native (h : Heap) (env globals : List Nat) (fn_ptr : Nat) :
    ∀ cp rc cl,
      (make_closure h env globals fn_ptr).1.vals (make_closure h env globals fn_ptr).2
          = some (rc, Value.closure cp) →
      (make_closure h env globals fn_ptr).1.clos cp = some (1, cl) →
      cl.fnPtr = EntryPoint.left fn_ptr ∧ ∀ alt, cl.fnPtr ≠ EntryPoint.right alt := by
  intro cp rc cl hv hc
  have hnx : (adoptAll (adoptAll h env) globals).next = h.next := by
    rw [next_adoptAll, next_adoptAll]
  have hv' : (make_closure h env globals fn_ptr).1.vals (make_closure h env globals fn_ptr).2
      = some (1, Value.closure h.next) := by
    simp only [make_closure, Heap.newClos, Heap.newVal, hnx]
    simp
  rw [hv'] at hv
  simp only [Option.some.injEq, Prod.mk.injEq, Value.closure.injEq] at hv
  obtain ⟨hrc, hcp⟩ := hv
  subst hcp
  have hcl : (make_closure h env globals fn_ptr).1.clos h.next
      = some (1, (⟨env, globals, EntryPoint.left fn_ptr⟩ : Closure)) := by
    simp only [make_closure, Heap.newClos, Heap.newVal, hnx]
    simp
  rw [hcl] at hc
  simp only [Option.some.injEq, Prod.mk.injEq] at hc
  obtain ⟨_, hcrec⟩ := hc
  subst hcrec
  exact ⟨rfl, fun alt hcontra => by simp at hcontra⟩

/-- Witness for C10, pinning the concrete closure cell produced on the
two-cell heap and checking its entry point is `Left 4` and not `Right 4`. -/
theorem make_closure_entry_native_witness :
    ((⟨[0], [], EntryPoint.left 4⟩ : Closure)).fnPtr = EntryPoint.left 4 ∧
    ((⟨[0], [], EntryPoint.left 4⟩ : Closure)).fnPtr ≠ EntryPoint.right 4 :=
  ⟨(make_closure_entry_native heapW [0] [] 4 2 1 ⟨[0], [], EntryPoint.left 4⟩
      (by decide) (by decide)).1,
   (make_closure_entry_native heapW [0] [] 4 2 1 ⟨[0], [], EntryPoint.left 4⟩
      (by decide) (by decide)).2 4⟩

theorem loop_filter (lower : Cps → CompilationResult) (tasks : List CompilationTask)
    (c : Nat) :
    (compilation_task_loop lower tasks).filter (fun d => d.1 == c)
      = (tasks.filter (fun u => u.completion_tx == c)).map
          (fun u => (u.completion_tx, lower u.compilation_unit)) := by
  induction tasks with
  | nil => rfl
  | cons a rest ih =>
    simp only [compilation_task_loop, List.map_cons, List.filter_cons] at ih ⊢
    by_cases ha : (a.completion_tx == c) = true
    · simp [ha, ih]
    · simp [ha, ih]

/-- C5: the worker loop performs exactly one send per admitted task — for
a task whose one-shot completion channel is unique in the admission
sequence, the deliveries on that channel are exactly one element, carrying
that task's lowering result (Ok Closure or the structured BuilderError),
so a compilation failure reaches the waiting submitter rather than being
dropped. -/
theorem compile_cps_one_result (lower : Cps → CompilationResult)
    (tasks : List CompilationTask) (t : CompilationTask)
    (huniq : tasks.filter (fun u => u.completion_tx == t.completion_tx) = [t]) :
    (compilation_task_loop lower tasks).filter (fun d => d.1 == t.completion_tx)
        = [(t.completion_tx, lower t.compilation_unit)] := by
  rw [loop_filter, huniq]
  rfl

/-- Witness for C5: in the concrete task list, channel 1's submitter gets
exactly one delivery and it is the structured lowering failure. -/
theorem compile_cps_one_result_witness :
    (compilation_task_loop lowerW tasksW).filter (fun d => d.1 == 1)
        = [(1, Except.error (BuilderError.mk 0))] := by
  have h := compile_cps_one_result lowerW tasksW ⟨1, 0⟩ (by decide)
  exact h.trans (by rfl)

/-- C9: the compilation queue is bounded at `MAX_COMPILATION_TASKS = 5` —
in every reachable scheduler state the number of admitted pending tasks
never exceeds the bound, because a submitter that finds the buffer full
suspends instead of enqueueing. -/
theorem compilation_queue_bounded (s : SchedState) (hr : SchedReachable s) :
    MAX_COMPILATION_TASKS = 5 ∧ s.queue.length ≤ MAX_COMPILATION_TASKS := by
  refine ⟨rfl, ?_⟩
  induction hr with
  | init => simp
  | step s1 s2 hre hstep ih =>
    cases hstep with
    | submit s1 t hlt =>
      simp only [MAX_COMPILATION_TASKS] at hlt ⊢
      simp only [List.length_append, List.length_cons, List.length_nil]
      omega
    | suspend s1 t hfull =>
      exact ih
    | recv q t w =>
      simp only [MAX_COMPILATION_TASKS, List.length_cons] at ih ⊢
      omega
    | unblock q t w hlt =>
      simp only [MAX_COMPILATION_TASKS] at hlt ⊢
      simp only [List.length_append, List.length_cons, List.length_nil]
      omega

/-- Witness for C9 at the reachable initial state. -/
theorem compilation_queue_bounded_witness :
    MAX_COMPILATION_TASKS = 5 ∧
      (SchedState.mk [] []).queue.length ≤ MAX_COMPILATION_TASKS :=
  compilation_queue_bounded ⟨[], []⟩ SchedReachable.init

end SchemeRS
